import Mathlib

/-!
Verification of the constrained span-scoring dynamic-programming engine of
the diora repository (file `pytorch/diora/net/trainer.py`, class
`SemiSupervisedParsingLoss`), together with the tree/span helpers of
`pytorch/diora/scripts/train.py`.

Modelling conventions:
* Scores are `torch.float` tensors in the source; they are modelled as exact
  integers (`Int`), since every claim is about the additive/max structure of
  the chart, not about rounding.
* The batch dimension is modelled by instantiating the engine per batch
  element: every arithmetic step and every constraint-set test in the source
  acts element-wise on the batch dimension (the per-cell loop over
  `batch_idx` and the element-wise tensor additions), so one batch element's
  chart depends only on that element's potential slice and span set.
* The Python `assert to_choose_assert[batch_idx] is False, "Only one valid
  tree."` aborts the scoring call at the first cell where a second split is
  forced; this is modelled by returning `Except.error "Only one valid tree."`
  exactly when some scanned cell forces two splits, and the chart value
  otherwise (the two presentations are observationally identical: the call
  raises iff some cell has a duplicate forced split).
* `torch.Tensor.argmax(1)` returns the first index attaining the row
  maximum; it is modelled by `argmaxIdx`, proved below to return the first
  maximising index.
-/

/-- A span in chart-native coordinates: `(start, length)`. -/
abbrev Span := Nat × Nat

/-- The constraint span set of one batch element (`set(span_lst)` in the
source; membership is by value equality). -/
abbrev SpanSet := List Span

/-- Split potentials (`scalars`) for one batch element:
`level → pos → idx → score`, i.e. `scalars[level][pos][batch, idx]` with the
batch index fixed. -/
abbrev Potentials := Nat → Nat → Nat → Int

/-- State of the per-cell constraint scan for one batch element: the
source's `to_choose[batch_idx]` (last forced split index, initially 0),
`to_choose_assert[batch_idx]` (whether some split was forced), and `dup`
(whether a second forced split was detected, i.e. whether the source's
`assert to_choose_assert[batch_idx] is False` fired). -/
structure ScanState where
  toChoose : Nat
  chosen : Bool
  dup : Bool
  deriving Repr, DecidableEq

/-- Whether split `idx` of cell `(level, pos)` is forced by `spans`:
`(l_size == 1 or l_span in span_set) and (r_size == 1 or r_span in
span_set)` with `l_span = (pos, idx+1)` and `r_span = (pos+idx+1,
level-idx)` (trainer.py lines 294-302). -/
def forcedAt (spans : SpanSet) (level pos idx : Nat) : Bool :=
  (idx + 1 == 1 || spans.contains (pos, idx + 1)) &&
  (level - idx == 1 || spans.contains (pos + idx + 1, level - idx))

/-- One step of the constraint bookkeeping for split `idx`: on a forced
split, `to_choose` is set to `idx`, the assertion fires if a split was
already chosen (`dup`), and the chosen flag is set (trainer.py lines
299-305). -/
def scanStep (p : Nat → Bool) (st : ScanState) (idx : Nat) : ScanState :=
  if p idx then { toChoose := idx, chosen := true, dup := st.dup || st.chosen }
  else st

/-- The source's inner loop over `idx in range(N)` restricted to the
constraint bookkeeping. -/
def cellScan (spans : SpanSet) (level pos : Nat) : ScanState :=
  (List.range level).foldl (scanStep (forcedAt spans level pos)) ⟨0, false, false⟩

/-- The list of split indices of cell `(level, pos)` that satisfy the
forced-split condition, in scan order. -/
def cellForced (spans : SpanSet) (level pos : Nat) : List Nat :=
  (List.range level).filter (forcedAt spans level pos)

/-- First index in `[0, n)` attaining the maximum of `f` (the behaviour of
`torch.Tensor.argmax(1)`): scans indices upward and replaces the running
best only on a strictly larger value. Returns 0 when `n = 0`. -/
def argmaxIdx (f : Nat → Int) : Nat → Nat
  | 0 => 0
  | 1 => 0
  | n + 2 =>
    let b := argmaxIdx f (n + 1)
    if f (n + 1) > f b then n + 1 else b

/-- A chart for one batch element: row `level` holds the scores of the
constituents `(pos, level+1)` for `pos < length - level`. -/
abbrev Chart := List (List Int)

/-- Chart lookup `chart[level][pos]` (out-of-range lookups, which never
occur in the source's access pattern, default to 0). -/
def chartGet (c : Chart) (level pos : Nat) : Int :=
  (c.getD level []).getD pos 0

/-- Combined score of split `idx` at cell `(level, pos)`:
`chart[l_level][l_pos] + chart[r_level][r_pos] + spbatch[:, idx]` with
`l_level = idx, l_pos = pos, r_level = level-idx-1, r_pos = pos+idx+1`
(trainer.py lines 269-310, `ps = lps + rps + sps`). -/
def psEntry (scalars : Potentials) (c : Chart) (level pos idx : Nat) : Int :=
  chartGet c idx pos + chartGet c (level - idx - 1) (pos + idx + 1) +
    scalars level pos idx

/-- The value stored at cell `(level, pos)` by `get_score_for_spans`
(trainer.py lines 308-321): `argmax1 = ps.argmax(1)` masked to 0 where a
split was forced, `argmax2 = argmax1 + to_choose`, and
`valmax = ps[batch, argmax2]`. -/
def cellValue (scalars : Potentials) (spans : SpanSet) (c : Chart)
    (level pos : Nat) : Int :=
  let st := cellScan spans level pos
  let argmax1 := argmaxIdx (fun idx => psEntry scalars c level pos idx) level
  let argmax1 := argmax1 * (if st.chosen then 0 else 1)
  let argmax2 := argmax1 + st.toChoose
  psEntry scalars c level pos argmax2

/-- The common chart-filling loop of the three scoring routines,
parameterised by the per-cell combination `cell` (the source duplicates
this loop verbatim in `get_score_for_spans`, `get_score_for_spans_modified`
and `get_score_for_spans_given`): row 0 is the all-ones leaf row
(`torch.full((length - i, batch_size), 1)`), and row `level` is computed
from the lower rows for each `pos < length - level`. -/
def chartFill (cell : Chart → Nat → Nat → Int) (length : Nat) : Nat → Chart
  | 0 => [List.replicate length 1]
  | k + 1 =>
    let c := chartFill cell length k
    c ++ [(List.range (length - (k + 1))).map (fun pos => cell c (k + 1) pos)]

/-- The chart rows `0 .. k` of `get_score_for_spans`. -/
def chartUpto (scalars : Potentials) (spans : SpanSet) (length : Nat) :
    Nat → Chart :=
  chartFill (cellValue scalars spans) length

/-- The fully filled chart (rows `0 .. length-1`). -/
def fullChart (scalars : Potentials) (spans : SpanSet) (length : Nat) :
    Chart :=
  chartUpto scalars spans length (length - 1)

/-- Whether the uniqueness assertion "Only one valid tree." fires at some
scanned cell (`level` from 1 to `length-1`, `pos` from 0 to
`length-1-level`) for this batch element. -/
def hasDup (spans : SpanSet) (length : Nat) : Bool :=
  (List.range (length - 1)).any fun l =>
    (List.range (length - (l + 1))).any fun pos =>
      (cellScan spans (l + 1) pos).dup

/-- `SemiSupervisedParsingLoss.get_score_for_spans` (trainer.py lines
236-323) for one batch element: fills the chart bottom-up and returns
`chart[-1][0]`, aborting with the assertion message when two splits are
forced in one cell. -/
def get_score_for_spans (scalars : Potentials) (spans : SpanSet)
    (length : Nat) : Except String Int :=
  if hasDup spans length then .error "Only one valid tree."
  else .ok (chartGet (fullChart scalars spans length) (length - 1) 0)

/-- The value stored at cell `(level, pos)` by `get_score_for_spans_given`
and `get_score_for_spans_modified` (trainer.py lines 397-410 and 495-505):
`valmax = ps[batch, to_choose]` — the argmax is never consulted. -/
def cellValueGiven (scalars : Potentials) (spans : SpanSet) (c : Chart)
    (level pos : Nat) : Int :=
  psEntry scalars c level pos (cellScan spans level pos).toChoose

/-- The chart rows `0 .. k` of the fully-constrained fill. -/
def chartUptoGiven (scalars : Potentials) (spans : SpanSet) (length : Nat) :
    Nat → Chart :=
  chartFill (cellValueGiven scalars spans) length

/-- The fully filled fully-constrained chart. -/
def fullChartGiven (scalars : Potentials) (spans : SpanSet) (length : Nat) :
    Chart :=
  chartUptoGiven scalars spans length (length - 1)

/-- `SemiSupervisedParsingLoss.get_score_for_spans_given` (trainer.py lines
423-515) for one batch element: fully-constrained fill, then for each
queried root span `(pos, size)` report `chart[size-1][pos]`. -/
def get_score_for_spans_given (scalars : Potentials) (spans : SpanSet)
    (length : Nat) (roots : List Span) : Except String (List Int) :=
  if hasDup spans length then .error "Only one valid tree."
  else .ok (roots.map fun r =>
    chartGet (fullChartGiven scalars spans length) (r.2 - 1) r.1)

/-- `SemiSupervisedParsingLoss.get_score_for_spans_modified` (trainer.py
lines 325-420) for one batch element: identical to
`get_score_for_spans_given` (the argmax lines are commented out in the
source and `valmax = ps[range(batch_size), argmax]` uses `to_choose`). -/
def get_score_for_spans_modified (scalars : Potentials) (spans : SpanSet)
    (length : Nat) (roots : List Span) : Except String (List Int) :=
  if hasDup spans length then .error "Only one valid tree."
  else .ok (roots.map fun r =>
    chartGet (fullChartGiven scalars spans length) (r.2 - 1) r.1)

/-- Whether span `t` covers span `s`:
`i <= span[0] and (i+j-1) >= (span[0] + span[1] - 1)` (trainer.py line 205),
computed over the integers as in Python. -/
def covers (t s : Span) : Bool :=
  (t.1 : Int) ≤ s.1 && (t.1 : Int) + t.2 - 1 ≥ (s.1 : Int) + s.2 - 1

/-- One step of `findParent`'s minimum-length scan (trainer.py lines
207-210): replace the running `(root, mx)` only on a strictly smaller
length. -/
def minStep (acc : Option Span × Nat) (t : Span) : Option Span × Nat :=
  if t.2 < acc.2 then (some t, t.2) else acc

/-- `SemiSupervisedParsingLoss.findParent` (trainer.py lines 195-214) :
if `span in tree` return `(span, [span])`; otherwise scan the covering
spans keeping the first one with length strictly below the running minimum
`mx` (initially 1000), then return it with every span of `tree` contained
in its extent. When `root` is never assigned the source falls through to
`root[0]` with `root = None` (a `TypeError`); that crash path is modelled
as `none`. -/
def findParent (tree : List Span) (span : Span) :
    Option (Span × List Span) :=
  if tree.contains span then some (span, [span])
  else
    let tmp := tree.filter (fun t => covers t span)
    let best := tmp.foldl minStep (none, 1000)
    match best.1 with
    | none => none
    | some root =>
      some (root, tree.filter (fun t =>
        decide (t.1 ≥ root.1) && decide (t.1 + t.2 ≤ root.1 + root.2)))

mutual
/-- A parse-stack item of `str_to_tuple` (train.py lines 133-149): either a
plain token string (including the open-bracket token `"("` itself, which
the source pushes like any other token) or a tuple of items. -/
inductive PTree where
  | leaf : String → PTree
  | node : PForest → PTree

/-- A list of parse-stack items (the contents of one tuple). -/
inductive PForest where
  | nil : PForest
  | cons : PTree → PForest → PForest
end

/-- The items of a forest, as a Lean list. -/
def PForest.toList : PForest → List PTree
  | .nil => []
  | .cons t ts => t :: ts.toList

/-- Whether a stack item is the open-bracket token (the source's comparison
`stack[-1] != '('`). -/
def isOpenTok : PTree → Bool
  | .leaf s => s == "("
  | .node _ => false

/-- Pop the run of items above the topmost open bracket: the stack is
modelled head-first (head = Python `stack[-1]`), and the result is the
popped run (top first) together with the remaining stack, whose head is the
open bracket when one was found. -/
def splitAtOpen : List PTree → List PTree × List PTree
  | [] => ([], [])
  | x :: rest =>
    if isOpenTok x then ([], x :: rest)
    else
      let (run, st) := splitAtOpen rest
      (x :: run, st)

/-- Build a forest from a list of items. -/
def PForest.ofList : List PTree → PForest
  | [] => .nil
  | t :: ts => .cons t (PForest.ofList ts)

/-- One token step of `str_to_tuple`: a non-`)` token is pushed; on `)` the
run above the open bracket is popped into `inside` (the `appendleft` loop
reverses the pop order, recovering bottom-to-top order), the bracket itself
is popped when present, and `tuple(inside)` is pushed. -/
def stepTok (stack : List PTree) (s : String) : List PTree :=
  if s != ")" then .leaf s :: stack
  else
    let (run, st) := splitAtOpen stack
    let st' := match st with | [] => [] | _ :: t => t
    .node (PForest.ofList run.reverse) :: st'

/-- `str_to_tuple` (train.py lines 133-149) on the token list
`tr.split(" ")`: fold the token steps over an initially empty stack and
return the whole stack, bottom first as in the source. -/
def str_to_tuple (tree : List String) : List PTree :=
  (tree.foldl stepTok []).reverse

mutual
/-- The bracket-text token encoding of a tree: a leaf is its token, a tuple
is `(`, the tokens of its items, `)`. -/
def tokensOf : PTree → List String
  | .leaf s => [s]
  | .node ts => "(" :: (tokensList ts ++ [")"])

/-- Token encoding of a forest. -/
def tokensList : PForest → List String
  | .nil => []
  | .cons t ts => tokensOf t ++ tokensList ts
end

mutual
/-- Well-formedness of a tree value: no leaf token is a bracket delimiter. -/
def wfT : PTree → Bool
  | .leaf s => !(s == "(") && !(s == ")")
  | .node ts => wfF ts

/-- Well-formedness of a forest. -/
def wfF : PForest → Bool
  | .nil => true
  | .cons t ts => wfT t && wfF ts
end

/-- A binary bracketing: a leaf (one token) or an ordered pair. -/
inductive BTree where
  | leaf : BTree
  | node : BTree → BTree → BTree
  deriving Repr, DecidableEq

/-- Number of leaves of a bracketing. -/
def BTree.size : BTree → Nat
  | .leaf => 1
  | .node l r => l.size + r.size

/-- Sum of the split potentials along a bracketing rooted at `pos`: an
internal node over the constituent `(pos, n)` whose left child has `k`
leaves contributes `scalars[n-1][pos][k-1]`. -/
def potSum (scalars : Potentials) : Nat → BTree → Int
  | _, .leaf => 0
  | pos, .node l r =>
    potSum scalars pos l + potSum scalars (pos + l.size) r +
      scalars (l.size + r.size - 1) pos (l.size - 1)

/-- All binary bracketings with `n` leaves, by fuel-indexed recursion
(`treesOfSizeF fuel n` is correct whenever `n ≤ fuel`). -/
def treesOfSizeF : Nat → Nat → List BTree
  | 0, _ => []
  | _ + 1, 0 => []
  | _ + 1, 1 => [.leaf]
  | fuel + 1, n + 2 =>
    (List.range (n + 1)).flatMap fun k =>
      (treesOfSizeF fuel (k + 1)).flatMap fun l =>
        (treesOfSizeF fuel (n + 1 - k)).map fun r => .node l r

/-- All binary bracketings with `n` leaves. -/
def treesOfSize (n : Nat) : List BTree := treesOfSizeF n n

/-- Maximum of a list of integers (0 on the empty list; every use below is
on a nonempty list). -/
def listMax : List Int → Int
  | [] => 0
  | [x] => x
  | x :: y :: t => max x (listMax (y :: t))

/-- The best chart score of the constituent `(pos, n)`: each bracketing
contributes `n` leaf identity values (the chart initialises leaves to 1)
plus its split potentials. -/
def bestScore (scalars : Potentials) (n pos : Nat) : Int :=
  listMax ((treesOfSize n).map fun t => (n : Int) + potSum scalars pos t)

/-- A length-4 split-potential instance whose unique maximising bracketing
is `((0,2),(2,2)) -> (0,4)` while the cell `(2,0)` (span `(0,3)`) prefers
the split that does not isolate `(0,2)`. -/
def scalC3 : Potentials := fun level pos idx =>
  if level = 3 && idx = 1 then 100
  else if level = 2 && pos = 0 && idx = 0 then 10
  else 0

/-! Basic facts about `listMax`. -/

theorem listMax_cons (x : Int) (l : List Int) (h : l ≠ []) :
    listMax (x :: l) = max x (listMax l) := by
  cases l with
  | nil => exact absurd rfl h
  | cons y t => rfl

theorem le_listMax_of_mem {x : Int} {l : List Int} (h : x ∈ l) :
    x ≤ listMax l := by
  induction l with
  | nil => exact absurd h (List.not_mem_nil x)
  | cons y t ih =>
    cases t with
    | nil =>
      rcases List.mem_cons.mp h with h1 | h1
      · simp [listMax, h1]
      · exact absurd h1 (List.not_mem_nil x)
    | cons z t' =>
      rw [listMax_cons y (z :: t') (by simp)]
      rcases List.mem_cons.mp h with h1 | h1
      · exact h1 ▸ le_max_left _ _
      · exact le_trans (ih h1) (le_max_right _ _)

theorem listMax_mem {l : List Int} (h : l ≠ []) : listMax l ∈ l := by
  induction l with
  | nil => exact absurd rfl h
  | cons y t ih =>
    cases t with
    | nil => simp [listMax]
    | cons z t' =>
      rw [listMax_cons y (z :: t') (by simp)]
      rcases max_choice y (listMax (z :: t')) with h1 | h1
      · rw [h1]; exact List.mem_cons_self _ _
      · rw [h1]; exact List.mem_cons_of_mem _ (ih (by simp))

theorem listMax_append (l₁ l₂ : List Int) (h₁ : l₁ ≠ []) (h₂ : l₂ ≠ []) :
    listMax (l₁ ++ l₂) = max (listMax l₁) (listMax l₂) := by
  induction l₁ with
  | nil => exact absurd rfl h₁
  | cons x t ih =>
    cases t with
    | nil =>
      rw [List.singleton_append, listMax_cons x l₂ h₂]
      rfl
    | cons y t' =>
      rw [List.cons_append, listMax_cons x ((y :: t') ++ l₂) (by simp),
        ih (by simp), listMax_cons x (y :: t') (by simp), max_assoc]

theorem listMax_map_add_left (c : Int) (f : α → Int) (l : List α)
    (h : l ≠ []) :
    listMax (l.map fun x => c + f x) = c + listMax (l.map f) := by
  induction l with
  | nil => exact absurd rfl h
  | cons x t ih =>
    cases t with
    | nil => rfl
    | cons y t' =>
      rw [List.map_cons, List.map_cons (f := f),
        listMax_cons _ _ (by simp), listMax_cons _ _ (by simp),
        ih (by simp), max_add_add_left]

theorem flatMap_ne_nil {f : α → List β} {l : List α} {a : α}
    (ha : a ∈ l) (h : f a ≠ []) : l.flatMap f ≠ [] := by
  rcases List.exists_mem_of_ne_nil _ h with ⟨b, hb⟩
  exact List.ne_nil_of_mem (List.mem_flatMap.mpr ⟨a, ha, hb⟩)

theorem listMax_flatMap (g : α → List Int) (l : List α) (h : l ≠ [])
    (hg : ∀ a ∈ l, g a ≠ []) :
    listMax (l.flatMap g) = listMax (l.map fun a => listMax (g a)) := by
  induction l with
  | nil => exact absurd rfl h
  | cons x t ih =>
    cases t with
    | nil => simp [List.flatMap_cons, listMax]
    | cons y t' =>
      have hx : g x ≠ [] := hg x (List.mem_cons_self _ _)
      have ht : (y :: t').flatMap g ≠ [] :=
        flatMap_ne_nil (List.mem_cons_self _ _)
          (hg y (List.mem_cons_of_mem _ (List.mem_cons_self _ _)))
      rw [List.flatMap_cons, listMax_append _ _ hx ht,
        ih (by simp) (fun a ha => hg a (List.mem_cons_of_mem _ ha))]
      conv_rhs => rw [List.map_cons, listMax_cons _ _ (by simp)]

theorem listMax_map_congr {f g : α → Int} {l : List α}
    (h : ∀ a ∈ l, f a = g a) : listMax (l.map f) = listMax (l.map g) := by
  rw [List.map_congr_left h]

/-! Facts about `argmaxIdx`: it is the first index attaining the maximum,
as `torch.Tensor.argmax` is. -/

theorem argmaxIdx_lt (f : Nat → Int) (n : Nat) (h : 1 ≤ n) :
    argmaxIdx f n < n := by
  induction n with
  | zero => omega
  | succ m ih =>
    cases m with
    | zero => simp [argmaxIdx]
    | succ m' =>
      rw [argmaxIdx]
      split
      · omega
      · exact lt_trans (ih (by omega)) (by omega)

theorem le_argmaxIdx (f : Nat → Int) (n : Nat) :
    ∀ i < n, f i ≤ f (argmaxIdx f n) := by
  induction n with
  | zero => omega
  | succ m ih =>
    cases m with
    | zero =>
      intro i hi
      have : i = 0 := by omega
      simp [argmaxIdx, this]
    | succ m' =>
      intro i hi
      rw [argmaxIdx]
      split
      · rename_i hgt
        rcases Nat.lt_succ_iff_lt_or_eq.mp hi with h1 | h1
        · exact le_of_lt (lt_of_le_of_lt (ih i h1) hgt)
        · exact le_of_eq (congrArg f h1)
      · rename_i hng
        rcases Nat.lt_succ_iff_lt_or_eq.mp hi with h1 | h1
        · exact ih i h1
        · rw [h1]; omega

theorem argmaxIdx_first (f : Nat → Int) (n : Nat) :
    ∀ i < argmaxIdx f n, f i < f (argmaxIdx f n) := by
  induction n with
  | zero =>
    intro i hi
    have h0 : argmaxIdx f 0 = 0 := rfl
    rw [h0] at hi
    exact absurd hi (Nat.not_lt_zero i)
  | succ m ih =>
    cases m with
    | zero =>
      intro i hi
      have h0 : argmaxIdx f 1 = 0 := rfl
      rw [h0] at hi
      exact absurd hi (Nat.not_lt_zero i)
    | succ m' =>
      intro i hi
      have hunf : argmaxIdx f (m' + 2) =
          if f (m' + 1) > f (argmaxIdx f (m' + 1)) then m' + 1
          else argmaxIdx f (m' + 1) := rfl
      rw [hunf] at hi ⊢
      by_cases hgt : f (m' + 1) > f (argmaxIdx f (m' + 1))
      · rw [if_pos hgt] at hi ⊢
        exact lt_of_le_of_lt (le_argmaxIdx f (m' + 1) i hi) hgt
      · rw [if_neg hgt] at hi ⊢
        exact ih i hi

theorem argmaxIdx_eq_listMax (f : Nat → Int) (n : Nat) (h : 1 ≤ n) :
    f (argmaxIdx f n) = listMax ((List.range n).map f) := by
  apply le_antisymm
  · exact le_listMax_of_mem
      (List.mem_map.mpr ⟨argmaxIdx f n,
        List.mem_range.mpr (argmaxIdx_lt f n h), rfl⟩)
  · have hne : (List.range n).map f ≠ [] := by
      simp [List.map_eq_nil_iff, List.range_eq_nil]
      omega
    rcases List.mem_map.mp (listMax_mem hne) with ⟨i, hi, hfi⟩
    rw [← hfi]
    exact le_argmaxIdx f n i (List.mem_range.mp hi)

theorem argmaxIdx_congr {f g : Nat → Int} (n : Nat)
    (h : ∀ i < n, f i = g i) : argmaxIdx f n = argmaxIdx g n := by
  induction n with
  | zero => rfl
  | succ m ih =>
    cases m with
    | zero => rfl
    | succ m' =>
      have hb : argmaxIdx f (m' + 1) = argmaxIdx g (m' + 1) :=
        ih fun i hi => h i (by omega)
      rw [argmaxIdx, argmaxIdx, hb, h (m' + 1) (by omega),
        h (argmaxIdx g (m' + 1)) (lt_trans (argmaxIdx_lt g (m' + 1) (by omega)) (by omega))]

/-! Facts about the constraint scan: its relation to the list of forced
indices `cellForced`. -/

theorem scanFold_no_forced {p : Nat → Bool} {l : List Nat}
    (h : ∀ i ∈ l, ¬p i = true) (st : ScanState) :
    l.foldl (scanStep p) st = st := by
  induction l generalizing st with
  | nil => rfl
  | cons x t ih =>
    rw [List.foldl_cons, scanStep, if_neg (h x (List.mem_cons_self _ _))]
    exact ih (fun i hi => h i (List.mem_cons_of_mem _ hi)) st

theorem scanFold_single {p : Nat → Bool} {l : List Nat} {i : Nat}
    (h : l.filter p = [i]) (st : ScanState) :
    l.foldl (scanStep p) st = ⟨i, true, st.dup || st.chosen⟩ := by
  induction l generalizing st with
  | nil => simp at h
  | cons x t ih =>
    rw [List.filter_cons] at h
    by_cases hx : p x = true
    · rw [if_pos hx] at h
      have hxi : x = i := (List.cons_eq_cons.mp h).1
      have htn : t.filter p = [] := (List.cons_eq_cons.mp h).2
      rw [List.foldl_cons, scanStep, if_pos hx, hxi]
      exact scanFold_no_forced
        (fun j hj => (List.filter_eq_nil_iff.mp htn) j hj) _
    · rw [if_neg hx] at h
      rw [List.foldl_cons, scanStep, if_neg hx]
      exact ih h st

theorem scanFold_dup_mono {p : Nat → Bool} (l : List Nat) (st : ScanState)
    (h : st.dup = true) : (l.foldl (scanStep p) st).dup = true := by
  induction l generalizing st with
  | nil => exact h
  | cons x t ih =>
    rw [List.foldl_cons, scanStep]
    split
    · exact ih _ (by simp [h])
    · exact ih _ h

theorem scanFold_dup_of_chosen {p : Nat → Bool} (l : List Nat)
    (st : ScanState) (hc : st.chosen = true) (h : l.filter p ≠ []) :
    (l.foldl (scanStep p) st).dup = true := by
  induction l generalizing st with
  | nil => simp at h
  | cons x t ih =>
    rw [List.foldl_cons, scanStep]
    by_cases hx : p x = true
    · rw [if_pos hx]
      exact scanFold_dup_mono t _ (by simp [hc])
    · rw [if_neg hx]
      rw [List.filter_cons, if_neg hx] at h
      exact ih st hc h

theorem scanFold_dup_of_two {p : Nat → Bool} (l : List Nat) (st : ScanState)
    (h : 2 ≤ (l.filter p).length) : (l.foldl (scanStep p) st).dup = true := by
  induction l generalizing st with
  | nil => simp at h
  | cons x t ih =>
    rw [List.foldl_cons, scanStep]
    by_cases hx : p x = true
    · rw [if_pos hx]
      rw [List.filter_cons, if_pos hx] at h
      have : t.filter p ≠ [] := by
        intro hnil
        rw [hnil] at h
        simp at h
      exact scanFold_dup_of_chosen t _ rfl this
    · rw [if_neg hx]
      rw [List.filter_cons, if_neg hx] at h
      exact ih st h

theorem cellScan_of_forced_nil {spans : SpanSet} {level pos : Nat}
    (h : cellForced spans level pos = []) :
    cellScan spans level pos = ⟨0, false, false⟩ :=
  scanFold_no_forced
    (fun i hi => by
      have := List.filter_eq_nil_iff.mp h i hi
      simpa using this) _

theorem cellScan_of_forced_single {spans : SpanSet} {level pos i : Nat}
    (h : cellForced spans level pos = [i]) :
    cellScan spans level pos = ⟨i, true, false⟩ :=
  scanFold_single h _

theorem cellScan_dup_of_two {spans : SpanSet} {level pos : Nat}
    (h : 2 ≤ (cellForced spans level pos).length) :
    (cellScan spans level pos).dup = true :=
  scanFold_dup_of_two _ _ h

theorem scanFold_toChoose_lt {p : Nat → Bool} {l : List Nat} {n : Nat}
    (hl : ∀ i ∈ l, i < n) (st : ScanState) (hst : st.toChoose < n) :
    (l.foldl (scanStep p) st).toChoose < n := by
  induction l generalizing st with
  | nil => exact hst
  | cons x t ih =>
    rw [List.foldl_cons, scanStep]
    split
    · exact ih (fun i hi => hl i (List.mem_cons_of_mem _ hi)) _
        (hl x (List.mem_cons_self _ _))
    · exact ih (fun i hi => hl i (List.mem_cons_of_mem _ hi)) st hst

theorem cellScan_toChoose_lt {spans : SpanSet} {level pos : Nat}
    (h : 1 ≤ level) : (cellScan spans level pos).toChoose < level :=
  scanFold_toChoose_lt (fun _ hi => List.mem_range.mp hi) _ h

/-! Structural facts about the chart-filling loop. -/

theorem chartFill_length (cell : Chart → Nat → Nat → Int) (length k : Nat) :
    (chartFill cell length k).length = k + 1 := by
  induction k with
  | zero => rfl
  | succ m ih => simp [chartFill, ih]

theorem chartFill_row_stable (cell : Chart → Nat → Nat → Int)
    (length : Nat) {l k k' : Nat} (h : l ≤ k) (h' : k ≤ k') :
    (chartFill cell length k').getD l [] = (chartFill cell length k).getD l [] := by
  induction k', h' using Nat.le_induction with
  | base => rfl
  | succ k' hk ih =>
    rw [chartFill]
    rw [List.getD_append _ _ _ _ (by rw [chartFill_length]; omega)]
    exact ih

theorem chartFill_row_succ (cell : Chart → Nat → Nat → Int)
    (length k : Nat) :
    (chartFill cell length (k + 1)).getD (k + 1) [] =
      (List.range (length - (k + 1))).map
        (fun pos => cell (chartFill cell length k) (k + 1) pos) := by
  rw [chartFill, List.getD_eq_getElem?_getD,
    List.getElem?_append_right (by rw [chartFill_length])]
  rw [chartFill_length]
  simp

theorem chartFill_row0 (cell : Chart → Nat → Nat → Int) (length k : Nat) :
    (chartFill cell length k).getD 0 [] = List.replicate length 1 := by
  have h := chartFill_row_stable cell length (Nat.zero_le 0) (Nat.zero_le k)
  rw [h]
  rfl

theorem chartGet_zero (cell : Chart → Nat → Nat → Int) {length : Nat}
    (k pos : Nat) (h : pos < length) :
    chartGet (chartFill cell length k) 0 pos = 1 := by
  rw [chartGet, chartFill_row0, List.getD_eq_getElem?_getD,
    List.getElem?_replicate, if_pos h]
  rfl

theorem chartFill_get (cell : Chart → Nat → Nat → Int)
    {length level pos k : Nat} (h1 : 1 ≤ level) (hk : level ≤ k)
    (hp : pos < length - level) :
    chartGet (chartFill cell length k) level pos =
      cell (chartFill cell length (level - 1)) level pos := by
  rw [chartGet, chartFill_row_stable cell length (le_refl level) hk]
  have hlev : level = (level - 1) + 1 := by omega
  rw [hlev, chartFill_row_succ, List.getD_eq_getElem?_getD,
    List.getElem?_map, List.getElem?_range (by omega)]
  simp only [Option.map_some', Option.getD_some]
  rw [← hlev]

theorem chartGet_row_any_pos (cell : Chart → Nat → Nat → Int)
    (length : Nat) {l k k' : Nat} (pos : Nat) (h : l ≤ k) (h' : k ≤ k') :
    chartGet (chartFill cell length k') l pos =
      chartGet (chartFill cell length k) l pos := by
  rw [chartGet, chartGet, chartFill_row_stable cell length h h']

theorem psEntry_stable (scalars : Potentials)
    (cell : Chart → Nat → Nat → Int) (length : Nat)
    {level pos idx k k' : Nat} (hidx : idx < level) (h : level ≤ k + 1)
    (h' : k ≤ k') :
    psEntry scalars (chartFill cell length k) level pos idx =
      psEntry scalars (chartFill cell length k') level pos idx := by
  rw [psEntry, psEntry,
    chartGet_row_any_pos cell length pos (show idx ≤ k by omega) h',
    chartGet_row_any_pos cell length (pos + idx + 1)
      (show level - idx - 1 ≤ k by omega) h']

theorem scanFold_chosen_mono {p : Nat → Bool} (l : List Nat)
    (st : ScanState) (h : st.chosen = true) :
    (l.foldl (scanStep p) st).chosen = true := by
  induction l generalizing st with
  | nil => exact h
  | cons x t ih =>
    rw [List.foldl_cons, scanStep]
    split
    · exact ih _ rfl
    · exact ih st h

theorem scanFold_not_chosen {p : Nat → Bool} {l : List Nat} {st : ScanState}
    (h : (l.foldl (scanStep p) st).chosen = false) :
    l.foldl (scanStep p) st = st := by
  induction l generalizing st with
  | nil => rfl
  | cons x t ih =>
    rw [List.foldl_cons, scanStep] at h ⊢
    by_cases hx : p x = true
    · rw [if_pos hx] at h
      rw [scanFold_chosen_mono t _ rfl] at h
      exact absurd h (by simp)
    · rw [if_neg hx] at h ⊢
      exact ih h

theorem cellScan_not_chosen {spans : SpanSet} {level pos : Nat}
    (h : (cellScan spans level pos).chosen = false) :
    cellScan spans level pos = ⟨0, false, false⟩ :=
  scanFold_not_chosen h

/-! The per-cell recurrence satisfied by the two chart fills. -/

theorem chart_rec (scalars : Potentials) (spans : SpanSet)
    {length level pos : Nat} (h1 : 1 ≤ level) (h2 : level < length)
    (hp : pos < length - level) :
    chartGet (fullChart scalars spans length) level pos =
      psEntry scalars (fullChart scalars spans length) level pos
        (argmaxIdx
            (fun idx =>
              psEntry scalars (fullChart scalars spans length) level pos idx)
            level *
          (if (cellScan spans level pos).chosen then 0 else 1) +
          (cellScan spans level pos).toChoose) := by
  have hk : level ≤ length - 1 := by omega
  rw [fullChart, chartUpto, chartFill_get _ h1 hk hp, cellValue]
  have hstab : ∀ idx, idx < level →
      psEntry scalars (chartFill (cellValue scalars spans) length (level - 1))
          level pos idx =
        psEntry scalars (chartFill (cellValue scalars spans) length (length - 1))
          level pos idx := by
    intro idx hidx
    exact psEntry_stable scalars _ length hidx (by omega) (by omega)
  have harg : argmaxIdx
      (fun idx =>
        psEntry scalars (chartFill (cellValue scalars spans) length (level - 1))
          level pos idx) level =
      argmaxIdx
        (fun idx =>
          psEntry scalars (chartFill (cellValue scalars spans) length (length - 1))
            level pos idx) level :=
    argmaxIdx_congr level hstab
  rw [harg]
  set A := argmaxIdx
    (fun idx =>
      psEntry scalars (chartFill (cellValue scalars spans) length (length - 1))
        level pos idx) level with hA
  apply hstab
  by_cases hc : (cellScan spans level pos).chosen
  · rw [if_pos hc]
    simpa using cellScan_toChoose_lt h1
  · rw [if_neg hc]
    have hlt := argmaxIdx_lt
      (fun idx =>
        psEntry scalars (chartFill (cellValue scalars spans) length (length - 1))
          level pos idx) level h1
    have h0 : (cellScan spans level pos).toChoose = 0 := by
      rw [cellScan_not_chosen (Bool.not_eq_true _ ▸ eq_false_of_ne_true hc)]
    rw [h0, hA] at *
    simp only [Nat.mul_one, Nat.add_zero]
    exact hlt

theorem chart_cell_forced (scalars : Potentials) (spans : SpanSet)
    {length level pos i : Nat} (h1 : 1 ≤ level) (h2 : level < length)
    (hp : pos < length - level) (hf : cellForced spans level pos = [i]) :
    chartGet (fullChart scalars spans length) level pos =
      psEntry scalars (fullChart scalars spans length) level pos i := by
  rw [chart_rec scalars spans h1 h2 hp, cellScan_of_forced_single hf]
  simp

theorem chart_cell_unforced (scalars : Potentials) (spans : SpanSet)
    {length level pos : Nat} (h1 : 1 ≤ level) (h2 : level < length)
    (hp : pos < length - level) (hf : cellForced spans level pos = []) :
    chartGet (fullChart scalars spans length) level pos =
      psEntry scalars (fullChart scalars spans length) level pos
        (argmaxIdx
          (fun idx =>
            psEntry scalars (fullChart scalars spans length) level pos idx)
          level) := by
  rw [chart_rec scalars spans h1 h2 hp, cellScan_of_forced_nil hf]
  simp

theorem chart_cell_unforced_max (scalars : Potentials) (spans : SpanSet)
    {length level pos : Nat} (h1 : 1 ≤ level) (h2 : level < length)
    (hp : pos < length - level) (hf : cellForced spans level pos = []) :
    chartGet (fullChart scalars spans length) level pos =
      listMax ((List.range level).map
        (fun idx =>
          psEntry scalars (fullChart scalars spans length) level pos idx)) := by
  rw [chart_cell_unforced scalars spans h1 h2 hp hf]
  exact argmaxIdx_eq_listMax _ level h1

theorem chartGiven_cell (scalars : Potentials) (spans : SpanSet)
    {length level pos : Nat} (h1 : 1 ≤ level) (h2 : level < length)
    (hp : pos < length - level) :
    chartGet (fullChartGiven scalars spans length) level pos =
      psEntry scalars (fullChartGiven scalars spans length) level pos
        (cellScan spans level pos).toChoose := by
  have hk : level ≤ length - 1 := by omega
  rw [fullChartGiven, chartUptoGiven, chartFill_get _ h1 hk hp, cellValueGiven]
  exact psEntry_stable scalars _ length (cellScan_toChoose_lt h1) (by omega)
    (by omega)

/-- In a cell scanned by the fill loop, a duplicate forced split would make
`hasDup` true. -/
theorem cellForced_le_one_of_not_dup {spans : SpanSet}
    {length level pos : Nat} (h1 : 1 ≤ level) (h2 : level < length)
    (hp : pos < length - level) (hdup : hasDup spans length = false) :
    (cellForced spans level pos).length ≤ 1 := by
  by_contra hlen
  have hd : (cellScan spans level pos).dup = true :=
    cellScan_dup_of_two (by omega)
  have : hasDup spans length = true := by
    rw [hasDup, List.any_eq_true]
    refine ⟨level - 1, List.mem_range.mpr (by omega), ?_⟩
    rw [List.any_eq_true]
    refine ⟨pos, List.mem_range.mpr (by omega), ?_⟩
    have hl : level - 1 + 1 = level := by omega
    rw [hl]
    exact hd
  rw [this] at hdup
  exact absurd hdup (by simp)

/-! With an empty constraint set, only split 0 of the level-1 cells is
forced. -/

theorem cellForced_nil_spans (level pos : Nat) :
    cellForced [] level pos = if level = 1 then [0] else [] := by
  match level with
  | 0 => rfl
  | 1 => rfl
  | n + 2 =>
    rw [if_neg (by omega)]
    rw [cellForced, List.filter_eq_nil_iff]
    intro idx hidx
    rw [forcedAt]
    simp only [List.contains, List.elem_eq_mem, decide_eq_true_eq,
      Bool.or_eq_true, Bool.and_eq_true, beq_iff_eq, not_and, not_or]
    intro hl
    rcases hl with h1 | h1
    · constructor
      · omega
      · simp
    · exact absurd h1 (List.not_mem_nil _)

theorem cellScan_nil_dup (level pos : Nat) :
    (cellScan [] level pos).dup = false := by
  by_cases h : level = 1
  · have hf : cellForced [] level pos = [0] := by
      rw [cellForced_nil_spans, if_pos h]
    rw [cellScan_of_forced_single hf]
  · have hf : cellForced [] level pos = [] := by
      rw [cellForced_nil_spans, if_neg h]
    rw [cellScan_of_forced_nil hf]

theorem hasDup_nil (length : Nat) : hasDup [] length = false := by
  rw [hasDup]
  simp [cellScan_nil_dup]

/-! Facts about the enumeration of binary bracketings. -/

theorem treesOfSizeF_zero (fuel : Nat) : treesOfSizeF fuel 0 = [] := by
  cases fuel <;> rfl

theorem treesOfSizeF_one {fuel : Nat} (h : 1 ≤ fuel) :
    treesOfSizeF fuel 1 = [.leaf] := by
  match fuel with
  | f + 1 => rfl

theorem treesOfSizeF_size {fuel : Nat} :
    ∀ {n : Nat}, n ≤ fuel → ∀ t ∈ treesOfSizeF fuel n, t.size = n := by
  induction fuel with
  | zero =>
    intro n hn t ht
    rw [treesOfSizeF] at ht
    exact absurd ht (List.not_mem_nil t)
  | succ f ih =>
    intro n hn t ht
    match n with
    | 0 => exact absurd (treesOfSizeF_zero (f + 1) ▸ ht) (List.not_mem_nil t)
    | 1 =>
      rw [treesOfSizeF] at ht
      rcases List.mem_singleton.mp ht with rfl
      rfl
    | m + 2 =>
      rw [treesOfSizeF] at ht
      rcases List.mem_flatMap.mp ht with ⟨k, hk, ht2⟩
      rcases List.mem_flatMap.mp ht2 with ⟨l, hl, ht3⟩
      rcases List.mem_map.mp ht3 with ⟨r, hr, rfl⟩
      have hkm := List.mem_range.mp hk
      have hls : l.size = k + 1 := ih (by omega) l hl
      have hrs : r.size = m + 1 - k := ih (by omega) r hr
      show l.size + r.size = m + 2
      omega

theorem treesOfSizeF_ne_nil {fuel : Nat} :
    ∀ {n : Nat}, 1 ≤ n → n ≤ fuel → treesOfSizeF fuel n ≠ [] := by
  induction fuel with
  | zero => intro n h1 h2; omega
  | succ f ih =>
    intro n h1 h2
    match n with
    | 1 => rw [treesOfSizeF]; simp
    | m + 2 =>
      rw [treesOfSizeF]
      rcases List.exists_mem_of_ne_nil _ (ih (n := m + 1) (by omega) (by omega))
        with ⟨r, hr⟩
      have hleaf : BTree.leaf ∈ treesOfSizeF f 1 := by
        rw [treesOfSizeF_one (by omega)]
        exact List.mem_singleton.mpr rfl
      apply List.ne_nil_of_mem (a := BTree.node .leaf r)
      rw [List.mem_flatMap]
      refine ⟨0, List.mem_range.mpr (by omega), ?_⟩
      rw [List.mem_flatMap]
      refine ⟨.leaf, hleaf, ?_⟩
      rw [List.mem_map]
      exact ⟨r, by simpa using hr, rfl⟩

theorem treesOfSizeF_fuel_irrel :
    ∀ {f1 f2 n : Nat}, n ≤ f1 → n ≤ f2 →
      treesOfSizeF f1 n = treesOfSizeF f2 n := by
  intro f1
  induction f1 with
  | zero =>
    intro f2 n h1 h2
    have : n = 0 := by omega
    subst this
    rw [treesOfSizeF_zero, treesOfSizeF_zero]
  | succ f ih =>
    intro f2 n h1 h2
    match n with
    | 0 => rw [treesOfSizeF_zero, treesOfSizeF_zero]
    | 1 => rw [treesOfSizeF_one (by omega), treesOfSizeF_one (by omega)]
    | m + 2 =>
      match f2 with
      | g + 1 =>
        rw [treesOfSizeF, treesOfSizeF]
        apply List.flatMap_congr
        intro k hk
        have hkm := List.mem_range.mp hk
        rw [@ih g (k + 1) (by omega) (by omega)]
        apply List.flatMap_congr
        intro l hl
        rw [@ih g (m + 1 - k) (by omega) (by omega)]

theorem treesOfSize_ne_nil {n : Nat} (h : 1 ≤ n) : treesOfSize n ≠ [] :=
  treesOfSizeF_ne_nil h (le_refl n)

theorem treesOfSize_size {n : Nat} (t : BTree) (h : t ∈ treesOfSize n) :
    t.size = n :=
  treesOfSizeF_size (le_refl n) t h

theorem treesOfSize_rec (m : Nat) :
    treesOfSize (m + 2) =
      (List.range (m + 1)).flatMap fun k =>
        (treesOfSize (k + 1)).flatMap fun l =>
          (treesOfSize (m + 1 - k)).map fun r => .node l r := by
  rw [treesOfSize, treesOfSizeF]
  apply List.flatMap_congr
  intro k hk
  have hkm := List.mem_range.mp hk
  rw [@treesOfSizeF_fuel_irrel (m + 1) (k + 1) (k + 1) (by omega) (le_refl _)]
  apply List.flatMap_congr
  intro l hl
  rw [@treesOfSizeF_fuel_irrel (m + 1) (m + 1 - k) (m + 1 - k) (by omega)
    (le_refl _)]
  rfl

/-! The recurrence satisfied by `bestScore`. -/

theorem listMax_sum_product (g : α → Int) (h : β → Int) (c : Int)
    (A : List α) (B : List β) (hA : A ≠ []) (hB : B ≠ []) :
    listMax (A.flatMap fun a => B.map fun b => g a + h b + c) =
      listMax (A.map g) + listMax (B.map h) + c := by
  rw [listMax_flatMap _ _ hA
    (fun a _ => by simpa [List.map_eq_nil_iff] using hB)]
  have hinner : ∀ a ∈ A,
      listMax (B.map fun b => g a + h b + c) =
        (listMax (B.map h) + c) + g a := by
    intro a _
    have hB' : (B.map fun b => g a + h b + c) =
        B.map fun b => (g a + c) + h b := by
      apply List.map_congr_left
      intro b _
      ring
    rw [hB', listMax_map_add_left (g a + c) h B hB]
    ring
  rw [listMax_map_congr hinner,
    listMax_map_add_left (listMax (B.map h) + c) g A hA]
  ring

theorem bestScore_one (scalars : Potentials) (pos : Nat) :
    bestScore scalars 1 pos = 1 := by
  rw [bestScore]
  show listMax [(1 : Int) + potSum scalars pos .leaf] = 1
  rw [potSum]
  norm_num [listMax]

theorem bestScore_rec (scalars : Potentials) (m pos : Nat) :
    bestScore scalars (m + 2) pos =
      listMax ((List.range (m + 1)).map fun k =>
        bestScore scalars (k + 1) pos +
          bestScore scalars (m + 1 - k) (pos + k + 1) +
          scalars (m + 1) pos k) := by
  rw [bestScore, treesOfSize_rec, List.map_flatMap]
  rw [listMax_flatMap _ _ (by simp [List.range_eq_nil]) (fun k hk => by
    have hkm := List.mem_range.mp hk
    rcases List.exists_mem_of_ne_nil _ (treesOfSize_ne_nil (n := k + 1) (by omega))
      with ⟨l, hl⟩
    rw [Ne, List.map_eq_nil_iff]
    apply flatMap_ne_nil hl
    simpa [List.map_eq_nil_iff] using treesOfSize_ne_nil (n := m + 1 - k) (by omega))]
  apply listMax_map_congr
  intro k hk
  have hkm := List.mem_range.mp hk
  have hEk : List.map (fun t => ((m + 2 : Nat) : Int) + potSum scalars pos t)
      ((treesOfSize (k + 1)).flatMap fun l =>
        (treesOfSize (m + 1 - k)).map fun r => BTree.node l r) =
      (treesOfSize (k + 1)).flatMap fun l =>
        (treesOfSize (m + 1 - k)).map fun r =>
          (((k + 1 : Nat) : Int) + potSum scalars pos l) +
            (((m + 1 - k : Nat) : Int) + potSum scalars (pos + k + 1) r) +
            scalars (m + 1) pos k := by
    rw [List.map_flatMap]
    apply List.flatMap_congr
    intro l hl
    rw [List.map_map]
    apply List.map_congr_left
    intro r hr
    have hls := treesOfSize_size l hl
    have hrs := treesOfSize_size r hr
    show ((m + 2 : Nat) : Int) + potSum scalars pos (BTree.node l r) = _
    rw [potSum, hls, hrs]
    have e1 : k + 1 + (m + 1 - k) - 1 = m + 1 := by omega
    have e2 : k + 1 - 1 = k := by omega
    have e3 : pos + (k + 1) = pos + k + 1 := by omega
    rw [e1, e2, e3]
    have e4 : ((m + 1 - k : Nat) : Int) = (m : Int) + 1 - k := by omega
    rw [e4]
    push_cast
    ring
  rw [hEk, listMax_sum_product _ _ _ _ _
    (treesOfSize_ne_nil (by omega)) (treesOfSize_ne_nil (by omega))]
  rfl

/-- Unconstrained dynamic-programming optimality: each chart cell holds the
best score over all bracketings of its constituent. -/
theorem chart_unconstrained_eq_best (scalars : Potentials) {length : Nat} :
    ∀ level, level < length → ∀ pos, pos < length - level →
      chartGet (fullChart scalars [] length) level pos =
        bestScore scalars (level + 1) pos := by
  intro level
  induction level using Nat.strong_induction_on with
  | _ level ih =>
    intro hlev pos hpos
    match level with
    | 0 =>
      rw [fullChart, chartUpto, chartGet_zero _ _ _ (by omega), bestScore_one]
    | 1 =>
      have hf : cellForced [] 1 pos = [0] := by
        rw [cellForced_nil_spans, if_pos rfl]
      rw [chart_cell_forced scalars [] (by omega) hlev hpos hf, psEntry]
      have hz1 : chartGet (fullChart scalars [] length) 0 pos = 1 := by
        rw [fullChart, chartUpto, chartGet_zero _ _ _ (by omega)]
      have hz2 : chartGet (fullChart scalars [] length) (1 - 0 - 1) (pos + 0 + 1) = 1 := by
        rw [fullChart, chartUpto]
        exact chartGet_zero _ _ _ (by omega)
      rw [hz1, hz2, bestScore_rec scalars 0 pos]
      have hr1 : List.range 1 = [0] := rfl
      rw [hr1]
      simp [listMax, bestScore_one]
    | m + 2 =>
      have hf : cellForced [] (m + 2) pos = [] := by
        rw [cellForced_nil_spans, if_neg (by omega)]
      rw [chart_cell_unforced_max scalars [] (by omega) hlev hpos hf]
      have hcong : ∀ idx ∈ List.range (m + 2),
          psEntry scalars (fullChart scalars [] length) (m + 2) pos idx =
            bestScore scalars (idx + 1) pos +
              bestScore scalars (m + 2 - idx) (pos + idx + 1) +
              scalars (m + 2) pos idx := by
        intro idx hidx
        have hidx' := List.mem_range.mp hidx
        rw [psEntry]
        have hleft : chartGet (fullChart scalars [] length) idx pos =
            bestScore scalars (idx + 1) pos :=
          ih idx (by omega) (by omega) pos (by omega)
        have hright : chartGet (fullChart scalars [] length)
            (m + 2 - idx - 1) (pos + idx + 1) =
            bestScore scalars (m + 2 - idx - 1 + 1) (pos + idx + 1) :=
          ih (m + 2 - idx - 1) (by omega) (by omega) (pos + idx + 1) (by omega)
        have e1 : m + 2 - idx - 1 + 1 = m + 2 - idx := by omega
        rw [hleft, hright, e1]
      rw [listMax_map_congr hcong]
      exact (bestScore_rec scalars (m + 1) pos).symm

/-! Facts about `findParent`'s minimum-length scan. -/

theorem minFold_no_update (l : List Span) (st : Option Span × Nat)
    (h : ∀ t ∈ l, ¬t.2 < st.2) : l.foldl minStep st = st := by
  induction l generalizing st with
  | nil => rfl
  | cons x t ih =>
    rw [List.foldl_cons, minStep, if_neg (h x (List.mem_cons_self _ _))]
    exact ih st (fun u hu => h u (List.mem_cons_of_mem _ hu))

theorem minFold_found (l : List Span) (st : Option Span × Nat)
    (h : ∃ t ∈ l, t.2 < st.2) :
    ∃ r, (l.foldl minStep st).1 = some r ∧ r ∈ l ∧ r.2 < st.2 ∧
      ∀ t ∈ l, r.2 ≤ t.2 := by
  induction l generalizing st with
  | nil =>
    rcases h with ⟨t, ht, _⟩
    exact absurd ht (List.not_mem_nil t)
  | cons x t ih =>
    by_cases hx : x.2 < st.2
    · rw [List.foldl_cons, minStep, if_pos hx]
      by_cases ht2 : ∃ u ∈ t, u.2 < x.2
      · have ht2' : ∃ u ∈ t, u.2 < (Prod.mk (some x) x.2).2 := ht2
        rcases ih _ ht2' with ⟨r, h1, h2, h3, h4⟩
        refine ⟨r, h1, List.mem_cons_of_mem _ h2, lt_trans h3 hx, ?_⟩
        intro u hu
        rcases List.mem_cons.mp hu with rfl | hu2
        · exact le_of_lt h3
        · exact h4 u hu2
      · push_neg at ht2
        rw [minFold_no_update t _ (fun u hu => not_lt.mpr (ht2 u hu))]
        refine ⟨x, rfl, List.mem_cons_self _ _, hx, ?_⟩
        intro u hu
        rcases List.mem_cons.mp hu with rfl | hu2
        · exact le_refl _
        · exact ht2 u hu2
    · rw [List.foldl_cons, minStep, if_neg hx]
      have h' : ∃ u ∈ t, u.2 < st.2 := by
        rcases h with ⟨u, hu, hlt⟩
        rcases List.mem_cons.mp hu with rfl | hu2
        · exact absurd hlt hx
        · exact ⟨u, hu2, hlt⟩
      rcases ih st h' with ⟨r, h1, h2, h3, h4⟩
      refine ⟨r, h1, List.mem_cons_of_mem _ h2, h3, ?_⟩
      intro u hu
      rcases List.mem_cons.mp hu with rfl | hu2
      · exact le_of_lt (lt_of_lt_of_le h3 (not_lt.mp hx))
      · exact h4 u hu2

/-! Facts about the bracket-text parsing stack. -/

theorem wfT_not_open {t : PTree} (h : wfT t = true) : isOpenTok t = false := by
  cases t with
  | leaf s =>
    rw [wfT] at h
    rw [Bool.and_eq_true, Bool.not_eq_true'] at h
    rw [isOpenTok]
    exact h.1
  | node ts => rfl

theorem wfF_toList : ∀ (ts : PForest), wfF ts = true →
    ∀ t ∈ ts.toList, wfT t = true
  | .nil, _, t, ht => absurd ht (List.not_mem_nil t)
  | .cons u us, h, t, ht => by
    rw [wfF, Bool.and_eq_true] at h
    rcases List.mem_cons.mp ht with rfl | ht2
    · exact h.1
    · exact wfF_toList us h.2 t ht2

theorem ofList_toList : ∀ (ts : PForest), PForest.ofList ts.toList = ts
  | .nil => rfl
  | .cons t ts => by
    rw [PForest.toList, PForest.ofList, ofList_toList ts]

theorem splitAtOpen_append (l st : List PTree)
    (h : ∀ x ∈ l, isOpenTok x = false) :
    splitAtOpen (l ++ .leaf "(" :: st) = (l, .leaf "(" :: st) := by
  induction l with
  | nil =>
    rw [List.nil_append, splitAtOpen]
    rw [if_pos (by rfl)]
  | cons x t ih =>
    rw [List.cons_append, splitAtOpen]
    rw [if_neg (by rw [h x (List.mem_cons_self _ _)]; exact Bool.false_ne_true),
      ih (fun u hu => h u (List.mem_cons_of_mem _ hu))]

mutual
/-- Processing the token encoding of a well-formed tree pushes exactly that
tree onto the stack. -/
theorem foldl_stepTok_tree (t : PTree) (h : wfT t = true)
    (st : List PTree) : (tokensOf t).foldl stepTok st = t :: st :=
  match t, h with
  | .leaf s, h => by
    rw [wfT, Bool.and_eq_true, Bool.not_eq_true', Bool.not_eq_true'] at h
    rw [tokensOf, List.foldl_cons, List.foldl_nil, stepTok,
      if_pos (by rw [bne_iff_ne]; intro hs; rw [hs] at h; simp at h)]
  | .node ts, h => by
    rw [wfT] at h
    rw [tokensOf, List.foldl_cons, stepTok, if_pos (by rw [bne_iff_ne]; intro hs; simp at hs)]
    rw [List.foldl_append, foldl_stepTok_forest ts h (.leaf "(" :: st)]
    rw [List.foldl_cons, List.foldl_nil, stepTok, if_neg (by simp)]
    rw [splitAtOpen_append _ _ (fun x hx =>
      wfT_not_open (wfF_toList ts h x (List.mem_reverse.mp hx)))]
    show PTree.node (PForest.ofList ts.toList.reverse.reverse) :: st =
      PTree.node ts :: st
    rw [List.reverse_reverse, ofList_toList]

/-- Processing the token encoding of a well-formed forest pushes its items
in order (the last item ends on top of the stack). -/
theorem foldl_stepTok_forest (ts : PForest) (h : wfF ts = true)
    (st : List PTree) :
    (tokensList ts).foldl stepTok st = ts.toList.reverse ++ st :=
  match ts, h with
  | .nil, _ => by
    rw [tokensList, List.foldl_nil, PForest.toList, List.reverse_nil,
      List.nil_append]
  | .cons t ts, h => by
    rw [wfF, Bool.and_eq_true] at h
    rw [tokensList, List.foldl_append, foldl_stepTok_tree t h.1 st,
      foldl_stepTok_forest ts h.2 (t :: st), PForest.toList,
      List.reverse_cons, List.append_assoc, List.singleton_append]
end

theorem two_le_length_of_mem_ne {α : Type _} {l : List α} {a b : α}
    (ha : a ∈ l) (hb : b ∈ l) (hne : a ≠ b) : 2 ≤ l.length := by
  match l with
  | [] => exact absurd ha (List.not_mem_nil a)
  | [x] =>
    have h1 := List.mem_singleton.mp ha
    have h2 := List.mem_singleton.mp hb
    rw [h1, h2] at hne
    exact absurd rfl hne
  | x :: y :: t =>
    rw [List.length_cons, List.length_cons]
    omega

/-- C1: on every input on which the call completes (no duplicate forced
split), `get_score_for_spans` returns `chart[length-1][0]`, and every
filled chart cell `(level, pos)` holds, for this batch element,
`chart[idx][pos] + chart[level-idx-1][pos+idx+1] + split_potential[level][pos][idx]`
where `idx` is the forced split when one exists and otherwise the first
index attaining the maximum of the combined scores over `idx ∈ [0, level)`. -/
theorem claim_C1_cell_values (scalars : Potentials) (spans : SpanSet)
    (length : Nat) (hdup : hasDup spans length = false) :
    get_score_for_spans scalars spans length =
      .ok (chartGet (fullChart scalars spans length) (length - 1) 0) ∧
    ∀ level pos, 1 ≤ level → level < length → pos < length - level →
      ∃ idx, idx < level ∧
        chartGet (fullChart scalars spans length) level pos =
          chartGet (fullChart scalars spans length) idx pos +
            chartGet (fullChart scalars spans length) (level - idx - 1)
              (pos + idx + 1) +
            scalars level pos idx ∧
        (cellForced spans level pos = [idx] ∨
          (cellForced spans level pos = [] ∧
            (∀ j, j < level →
              psEntry scalars (fullChart scalars spans length) level pos j ≤
                psEntry scalars (fullChart scalars spans length) level pos idx) ∧
            ∀ j, j < idx →
              psEntry scalars (fullChart scalars spans length) level pos j <
                psEntry scalars (fullChart scalars spans length) level pos idx)) := by
  constructor
  · rw [get_score_for_spans, if_neg (by rw [hdup]; exact Bool.false_ne_true)]
  · intro level pos h1 h2 hp
    match hfc : cellForced spans level pos with
    | [] =>
      refine ⟨argmaxIdx
        (fun idx =>
          psEntry scalars (fullChart scalars spans length) level pos idx)
        level, argmaxIdx_lt _ _ h1, ?_,
        Or.inr ⟨rfl, fun j hj => le_argmaxIdx _ level j hj,
          fun j hj => argmaxIdx_first _ level j hj⟩⟩
      exact chart_cell_unforced scalars spans h1 h2 hp hfc
    | [i] =>
      have hi : i < level := by
        have hmem : i ∈ cellForced spans level pos := by
          rw [hfc]; exact List.mem_singleton.mpr rfl
        exact List.mem_range.mp (List.mem_filter.mp hmem).1
      exact ⟨i, hi, chart_cell_forced scalars spans h1 h2 hp hfc, Or.inl rfl⟩
    | i :: j :: rest =>
      exfalso
      have hle := cellForced_le_one_of_not_dup h1 h2 hp hdup
      rw [hfc, List.length_cons, List.length_cons] at hle
      omega

theorem claim_C1_cell_values_witness :
    hasDup [((0:Nat),(2:Nat))] 3 = false ∧
    (get_score_for_spans (fun _ _ _ => 0) [((0:Nat),(2:Nat))] 3 =
      .ok (chartGet (fullChart (fun _ _ _ => 0) [((0:Nat),(2:Nat))] 3) (3 - 1) 0) ∧
    ∀ level pos, 1 ≤ level → level < 3 → pos < 3 - level →
      ∃ idx, idx < level ∧
        chartGet (fullChart (fun _ _ _ => 0) [((0:Nat),(2:Nat))] 3) level pos =
          chartGet (fullChart (fun _ _ _ => 0) [((0:Nat),(2:Nat))] 3) idx pos +
            chartGet (fullChart (fun _ _ _ => 0) [((0:Nat),(2:Nat))] 3)
              (level - idx - 1) (pos + idx + 1) +
            (fun _ _ _ => (0:Int)) level pos idx ∧
        (cellForced [((0:Nat),(2:Nat))] level pos = [idx] ∨
          (cellForced [((0:Nat),(2:Nat))] level pos = [] ∧
            (∀ j, j < level →
              psEntry (fun _ _ _ => 0)
                  (fullChart (fun _ _ _ => 0) [((0:Nat),(2:Nat))] 3) level pos j ≤
                psEntry (fun _ _ _ => 0)
                  (fullChart (fun _ _ _ => 0) [((0:Nat),(2:Nat))] 3) level pos idx) ∧
            ∀ j, j < idx →
              psEntry (fun _ _ _ => 0)
                  (fullChart (fun _ _ _ => 0) [((0:Nat),(2:Nat))] 3) level pos j <
                psEntry (fun _ _ _ => 0)
                  (fullChart (fun _ _ _ => 0) [((0:Nat),(2:Nat))] 3) level pos idx))) :=
  ⟨by decide, claim_C1_cell_values (fun _ _ _ => 0) [((0:Nat),(2:Nat))] 3 (by decide)⟩

/-- C9: with an empty constraint set the uniqueness assertion is
unreachable: at most one split is forced per cell — exactly split 0 at the
level-1 cells, whose children are both of size 1 — so the unconstrained
scoring call always returns a value. -/
theorem claim_C9_unconstrained_never_aborts (scalars : Potentials)
    (length : Nat) (_hlen : 1 ≤ length) :
    (∀ level pos, cellForced [] level pos = if level = 1 then [0] else []) ∧
    (∀ level pos, (cellScan [] level pos).dup = false) ∧
    hasDup [] length = false ∧
    get_score_for_spans scalars [] length =
      .ok (chartGet (fullChart scalars [] length) (length - 1) 0) := by
  refine ⟨cellForced_nil_spans, cellScan_nil_dup, hasDup_nil length, ?_⟩
  rw [get_score_for_spans, if_neg (by rw [hasDup_nil]; exact Bool.false_ne_true)]

theorem claim_C9_unconstrained_never_aborts_witness :
    (1 : Nat) ≤ 3 ∧
    ((∀ level pos, cellForced [] level pos = if level = 1 then [0] else []) ∧
    (∀ level pos, (cellScan [] level pos).dup = false) ∧
    hasDup [] 3 = false ∧
    get_score_for_spans (fun _ _ _ => 0) [] 3 =
      .ok (chartGet (fullChart (fun _ _ _ => 0) [] 3) (3 - 1) 0)) :=
  ⟨by decide, claim_C9_unconstrained_never_aborts (fun _ _ _ => 0) 3 (by decide)⟩

/-- C2 counterexample: with zero potentials and `n = 2` the root score is
2, while the maximum over bracketings of the split-potential sums alone is
0 — the leaf identity value 1 enters the root score once per token. -/
theorem claim_C2_counterexample :
    get_score_for_spans (fun _ _ _ => 0) [] 2 = .ok 2 ∧
    listMax ((treesOfSize 2).map (potSum (fun _ _ _ => 0) 0)) = 0 ∧
    (2 : Int) ≠ 0 :=
  ⟨rfl, rfl, by decide⟩

/-- C2 amended: for an unconstrained scoring call on a length-`n` sequence,
the root score equals `n` (one leaf identity value per token) plus the
maximum, over all binary bracketings, of the sum of the `n-1` split
potentials along the bracketing. -/
theorem claim_C2_root_score_amended (scalars : Potentials) {n : Nat}
    (h : 1 ≤ n) :
    get_score_for_spans scalars [] n =
      .ok ((n : Int) + listMax ((treesOfSize n).map (potSum scalars 0))) := by
  rw [get_score_for_spans, if_neg (by rw [hasDup_nil]; exact Bool.false_ne_true)]
  have hroot := @chart_unconstrained_eq_best scalars n (n - 1)
    (by omega) 0 (by omega)
  have e : n - 1 + 1 = n := by omega
  rw [e] at hroot
  rw [hroot, bestScore,
    listMax_map_add_left ((n : Nat) : Int) (potSum scalars 0) _
      (treesOfSize_ne_nil h)]

theorem claim_C2_root_score_amended_witness :
    (1 : Nat) ≤ 3 ∧
    get_score_for_spans (fun level _ idx => (level : Int) + idx) [] 3 =
      .ok ((3 : Int) +
        listMax ((treesOfSize 3).map
          (potSum (fun level _ idx => (level : Int) + idx) 0))) :=
  ⟨by decide,
    claim_C2_root_score_amended (fun level _ idx => (level : Int) + idx)
      (by decide)⟩

/-- C4: if two different split indices both satisfy the forced-split
condition for the same batch element in the same (scanned) chart cell, the
scoring call aborts with the "Only one valid tree." error instead of
silently picking one of them. -/
theorem claim_C4_ambiguous_constraint_aborts (scalars : Potentials)
    (spans : SpanSet) {length level pos i j : Nat} (h1 : 1 ≤ level)
    (h2 : level < length) (hp : pos < length - level) (hij : i < j)
    (hj : j < level) (hfi : forcedAt spans level pos i = true)
    (hfj : forcedAt spans level pos j = true) :
    get_score_for_spans scalars spans length =
      .error "Only one valid tree." := by
  have hi_mem : i ∈ cellForced spans level pos :=
    List.mem_filter.mpr ⟨List.mem_range.mpr (by omega), hfi⟩
  have hj_mem : j ∈ cellForced spans level pos :=
    List.mem_filter.mpr ⟨List.mem_range.mpr hj, hfj⟩
  have hlen2 : 2 ≤ (cellForced spans level pos).length :=
    two_le_length_of_mem_ne hi_mem hj_mem (by omega)
  have hd := cellScan_dup_of_two hlen2
  have hdup : hasDup spans length = true := by
    rw [hasDup, List.any_eq_true]
    refine ⟨level - 1, List.mem_range.mpr (by omega), ?_⟩
    rw [List.any_eq_true]
    refine ⟨pos, List.mem_range.mpr (by omega), ?_⟩
    rw [show level - 1 + 1 = level by omega]
    exact hd
  rw [get_score_for_spans, if_pos hdup]

theorem claim_C4_ambiguous_constraint_aborts_witness :
    get_score_for_spans (fun _ _ _ => 0)
      [((0:Nat),(2:Nat)), (2,2), (0,3)] 4 = .error "Only one valid tree." :=
  @claim_C4_ambiguous_constraint_aborts (fun _ _ _ => 0)
    [((0:Nat),(2:Nat)), (2,2), (0,3)] 4 3 0 1 2 (by decide) (by decide)
    (by decide) (by decide) (by decide) (by decide) (by decide)

/-- C5 counterexample: with constraint set `{(0,2), (0,3)}` no chart cell
forces two splits — at the level-3, pos-0 cell only the split with left
child `(0,3)` is forced, since the split with left child `(0,2)` would also
need `(2,2)` in the set — so the call returns a value (4 for zero
potentials) instead of raising the uniqueness-violation error. -/
theorem claim_C5_counterexample :
    hasDup [((0:Nat),(2:Nat)), (0,3)] 4 = false ∧
    cellForced [((0:Nat),(2:Nat)), (0,3)] 3 0 = [2] ∧
    get_score_for_spans (fun _ _ _ => 0) [((0:Nat),(2:Nat)), (0,3)] 4 =
      .ok 4 :=
  ⟨by decide, by decide, rfl⟩

/-- C5 amended: scoring a length-4 sequence with a constraint span set
containing `(0,2)`, `(2,2)` and `(0,3)` for the same batch element raises
the uniqueness-violation error: at the level-3, pos-0 cell both split 1
(children `(0,2)`, `(2,2)`) and split 2 (children `(0,3)`, `(3,1)`) are
forced. With only `{(0,2), (0,3)}` no cell forces two splits and the call
returns a value. -/
theorem claim_C5_overlapping_aborts_amended (scalars : Potentials) :
    cellForced [((0:Nat),(2:Nat)), (2,2), (0,3)] 3 0 = [1, 2] ∧
    get_score_for_spans scalars [((0:Nat),(2:Nat)), (2,2), (0,3)] 4 =
      .error "Only one valid tree." := by
  refine ⟨by decide, ?_⟩
  rw [get_score_for_spans, if_pos (by decide)]

/-- C6: in fully-constrained mode both `get_score_for_spans_given` and
`get_score_for_spans_modified` store, at every filled cell, the combined
score at the forced split when one was forced and at split index 0
otherwise (the argmax is never consulted), and report
`chart[size-1][pos]` for each queried root span `(pos, size)`. -/
theorem claim_C6_fully_constrained (scalars : Potentials) (spans : SpanSet)
    (length : Nat) (roots : List Span)
    (hdup : hasDup spans length = false)
    (_hroots : ∀ r ∈ roots, 1 ≤ r.2) :
    get_score_for_spans_given scalars spans length roots =
      .ok (roots.map fun r =>
        chartGet (fullChartGiven scalars spans length) (r.2 - 1) r.1) ∧
    get_score_for_spans_modified scalars spans length roots =
      .ok (roots.map fun r =>
        chartGet (fullChartGiven scalars spans length) (r.2 - 1) r.1) ∧
    ∀ level pos, 1 ≤ level → level < length → pos < length - level →
      ∃ idx,
        chartGet (fullChartGiven scalars spans length) level pos =
          chartGet (fullChartGiven scalars spans length) idx pos +
            chartGet (fullChartGiven scalars spans length) (level - idx - 1)
              (pos + idx + 1) + scalars level pos idx ∧
        (cellForced spans level pos = [idx] ∨
          (cellForced spans level pos = [] ∧ idx = 0)) := by
  refine ⟨?_, ?_, ?_⟩
  · rw [get_score_for_spans_given,
      if_neg (by rw [hdup]; exact Bool.false_ne_true)]
  · rw [get_score_for_spans_modified,
      if_neg (by rw [hdup]; exact Bool.false_ne_true)]
  · intro level pos h1 h2 hp
    match hfc : cellForced spans level pos with
    | [] =>
      refine ⟨0, ?_, Or.inr ⟨rfl, rfl⟩⟩
      have := chartGiven_cell scalars spans h1 h2 hp
      rw [cellScan_of_forced_nil hfc] at this
      exact this
    | [i] =>
      refine ⟨i, ?_, Or.inl rfl⟩
      have := chartGiven_cell scalars spans h1 h2 hp
      rw [cellScan_of_forced_single hfc] at this
      exact this
    | i :: j :: rest =>
      exfalso
      have hle := cellForced_le_one_of_not_dup h1 h2 hp hdup
      rw [hfc, List.length_cons, List.length_cons] at hle
      omega

theorem claim_C6_fully_constrained_witness :
    hasDup [((0:Nat),(2:Nat))] 3 = false ∧
    (∀ r ∈ [((0:Nat),(3:Nat)), (0,2)], 1 ≤ r.2) ∧
    (get_score_for_spans_given (fun _ _ _ => 0) [((0:Nat),(2:Nat))] 3
        [((0:Nat),(3:Nat)), (0,2)] =
      .ok ([((0:Nat),(3:Nat)), (0,2)].map fun r =>
        chartGet (fullChartGiven (fun _ _ _ => 0) [((0:Nat),(2:Nat))] 3)
          (r.2 - 1) r.1) ∧
    get_score_for_spans_modified (fun _ _ _ => 0) [((0:Nat),(2:Nat))] 3
        [((0:Nat),(3:Nat)), (0,2)] =
      .ok ([((0:Nat),(3:Nat)), (0,2)].map fun r =>
        chartGet (fullChartGiven (fun _ _ _ => 0) [((0:Nat),(2:Nat))] 3)
          (r.2 - 1) r.1) ∧
    ∀ level pos, 1 ≤ level → level < 3 → pos < 3 - level →
      ∃ idx,
        chartGet (fullChartGiven (fun _ _ _ => 0) [((0:Nat),(2:Nat))] 3)
            level pos =
          chartGet (fullChartGiven (fun _ _ _ => 0) [((0:Nat),(2:Nat))] 3)
              idx pos +
            chartGet (fullChartGiven (fun _ _ _ => 0) [((0:Nat),(2:Nat))] 3)
              (level - idx - 1) (pos + idx + 1) +
            (fun _ _ _ => (0:Int)) level pos idx ∧
        (cellForced [((0:Nat),(2:Nat))] level pos = [idx] ∨
          (cellForced [((0:Nat),(2:Nat))] level pos = [] ∧ idx = 0))) :=
  ⟨by decide, by decide,
    claim_C6_fully_constrained (fun _ _ _ => 0) [((0:Nat),(2:Nat))] 3
      [((0:Nat),(3:Nat)), (0,2)] (by decide) (by decide)⟩

/-- C7 counterexample: `findParent` initialises its running minimum `mx` to
1000, so a covering span of length 1000 is never selected: the target is
not a member, a covering span exists, yet the function reaches the
undefined-root state instead of returning the minimal covering span. -/
theorem claim_C7_findParent_counterexample :
    List.contains [((0:Nat),(1000:Nat))] ((0:Nat),(1:Nat)) = false ∧
    covers ((0:Nat),(1000:Nat)) ((0:Nat),(1:Nat)) = true ∧
    findParent [((0:Nat),(1000:Nat))] ((0:Nat),(1:Nat)) = none :=
  ⟨by decide, by decide, rfl⟩

/-- C7 amended: if the target span is a member of `tree_spans`, `findParent`
returns the span itself as root with children `[span]`; otherwise, provided
at least one covering span of length below the sentinel initial minimum
1000 exists, it returns a covering span of minimal length as root, and as
children every span of `tree_spans` contained in the root's extent. -/
theorem claim_C7_findParent_amended (tree : List Span) (span : Span) :
    (tree.contains span = true → findParent tree span = some (span, [span])) ∧
    (tree.contains span = false →
      ∀ t0 ∈ tree, covers t0 span = true → t0.2 < 1000 →
        ∃ root children,
          findParent tree span = some (root, children) ∧
          root ∈ tree ∧ covers root span = true ∧
          (∀ t ∈ tree, covers t span = true → root.2 ≤ t.2) ∧
          children = tree.filter fun t =>
            decide (t.1 ≥ root.1) && decide (t.1 + t.2 ≤ root.1 + root.2)) := by
  constructor
  · intro hc
    rw [findParent, if_pos hc]
  · intro hc t0 ht0 hcov hlen
    have heq : findParent tree span =
        match (List.foldl minStep ((none : Option Span), 1000)
            (tree.filter fun t => covers t span)).1 with
        | none => none
        | some root =>
          some (root, tree.filter fun t =>
            decide (t.1 ≥ root.1) && decide (t.1 + t.2 ≤ root.1 + root.2)) := by
      rw [findParent, if_neg (by rw [hc]; exact Bool.false_ne_true)]
    have hex : ∃ u ∈ tree.filter (fun t => covers t span),
        u.2 < (((none : Option Span), (1000 : Nat))).2 :=
      ⟨t0, List.mem_filter.mpr ⟨ht0, hcov⟩, hlen⟩
    rcases minFold_found _ _ hex with ⟨r, h1, h2, h3, h4⟩
    refine ⟨r, tree.filter fun t =>
      decide (t.1 ≥ r.1) && decide (t.1 + t.2 ≤ r.1 + r.2), ?_, ?_, ?_, ?_, rfl⟩
    · rw [heq, h1]
    · exact (List.mem_filter.mp h2).1
    · exact (List.mem_filter.mp h2).2
    · intro t ht hcovt
      exact h4 t (List.mem_filter.mpr ⟨ht, hcovt⟩)

theorem claim_C7_findParent_amended_witness :
    List.contains [((0:Nat),(2:Nat)), (2,2), (0,4)] ((1:Nat),(1:Nat)) = false ∧
    (∃ root children,
      findParent [((0:Nat),(2:Nat)), (2,2), (0,4)] ((1:Nat),(1:Nat)) =
        some (root, children) ∧
      root ∈ [((0:Nat),(2:Nat)), (2,2), (0,4)] ∧
      covers root ((1:Nat),(1:Nat)) = true ∧
      (∀ t ∈ [((0:Nat),(2:Nat)), (2,2), (0,4)],
        covers t ((1:Nat),(1:Nat)) = true → root.2 ≤ t.2) ∧
      children = [((0:Nat),(2:Nat)), (2,2), (0,4)].filter fun t =>
        decide (t.1 ≥ root.1) && decide (t.1 + t.2 ≤ root.1 + root.2)) :=
  ⟨by decide,
    (claim_C7_findParent_amended [((0:Nat),(2:Nat)), (2,2), (0,4)]
        ((1:Nat),(1:Nat))).2
      (by decide) ((0:Nat),(2:Nat)) (by decide) (by decide) (by decide)⟩

/-- C8: at an input whose target span is not a member of `tree_spans` and
is covered by no span of it, `findParent` reaches the undefined-root state
(the source dereferences `root = None`, a `TypeError`) instead of raising a
descriptive "no enclosing constituent found" error. -/
theorem claim_C8_no_cover_null_deref :
    List.contains [((2:Nat),(2:Nat))] ((0:Nat),(3:Nat)) = false ∧
    (∀ t ∈ [((2:Nat),(2:Nat))], covers t ((0:Nat),(3:Nat)) = false) ∧
    findParent [((2:Nat),(2:Nat))] ((0:Nat),(3:Nat)) = none :=
  ⟨by decide, by decide, rfl⟩

/-- C10: on the token encoding of any single well-formed bracketed tree,
`str_to_tuple` returns the whole parsing stack — a list containing exactly
one element, the nested tuple for that tree — not the tree itself. -/
theorem claim_C10_str_to_tuple_stack (t : PTree) (h : wfT t = true) :
    str_to_tuple (tokensOf t) = [t] := by
  rw [str_to_tuple, foldl_stepTok_tree t h []]
  rfl

theorem claim_C10_str_to_tuple_stack_witness :
    tokensOf (.node (.cons (.leaf "a")
        (.cons (.node (.cons (.leaf "b") (.cons (.leaf "c") .nil))) .nil))) =
      ["(", "a", "(", "b", "c", ")", ")"] ∧
    wfT (.node (.cons (.leaf "a")
        (.cons (.node (.cons (.leaf "b") (.cons (.leaf "c") .nil))) .nil))) =
      true ∧
    str_to_tuple ["(", "a", "(", "b", "c", ")", ")"] =
      [.node (.cons (.leaf "a")
        (.cons (.node (.cons (.leaf "b") (.cons (.leaf "c") .nil))) .nil))] :=
  ⟨rfl, rfl,
    claim_C10_str_to_tuple_stack
      (.node (.cons (.leaf "a")
        (.cons (.node (.cons (.leaf "b") (.cons (.leaf "c") .nil))) .nil)))
      (by rfl)⟩

/-- C3 counterexample: `scalC3` has the unique maximising bracketing
`((0,2),(2,2)) -> (0,4)`, yet scoring with constraint set `{(0,2)}` changes
the level-2, pos-0 cell (span `(0,3)`): the constraint forces its split 1
(isolating `(0,2)`) although split 0 scores higher, so that cell is not
numerically identical to the unconstrained run; the level-3 cell, in turn,
forces nothing (`(2,2)` is missing from the set). -/
theorem claim_C3_counterexample :
    (∀ t ∈ treesOfSize 4,
      t ≠ BTree.node (.node .leaf .leaf) (.node .leaf .leaf) →
        potSum scalC3 0 t <
          potSum scalC3 0 (BTree.node (.node .leaf .leaf) (.node .leaf .leaf))) ∧
    cellForced [((0:Nat),(2:Nat))] 3 0 = [] ∧
    chartGet (fullChart scalC3 [((0:Nat),(2:Nat))] 4) 2 0 = 3 ∧
    chartGet (fullChart scalC3 [] 4) 2 0 = 13 ∧
    (3 : Int) ≠ 13 := by
  refine ⟨by decide, by decide, by decide, by decide, by decide⟩

/-- C3 amended: for a length-4 sequence whose unique maximising bracketing
is `((0,2),(2,2)) -> (0,4)`, constraining with `{(0,2)}` forces the split
isolating `(0,2)` at the level-2, pos-0 cell (span `(0,3)`) even if a
different split scores higher there; the level-3 cell forces nothing, and
every cell other than the level-2, pos-0 cell — including the level-3 root
cell, which still takes the split isolating `(0,2)` by argmax — remains
numerically identical to the unconstrained run. -/
theorem claim_C3_forced_at_level2_amended (scalars : Potentials)
    (hmax : ∀ t ∈ treesOfSize 4,
      t ≠ BTree.node (.node .leaf .leaf) (.node .leaf .leaf) →
        potSum scalars 0 t <
          potSum scalars 0 (BTree.node (.node .leaf .leaf) (.node .leaf .leaf))) :
    cellForced [((0:Nat),(2:Nat))] 2 0 = [1] ∧
    cellForced [((0:Nat),(2:Nat))] 3 0 = [] ∧
    chartGet (fullChart scalars [((0:Nat),(2:Nat))] 4) 2 0 =
      psEntry scalars (fullChart scalars [((0:Nat),(2:Nat))] 4) 2 0 1 ∧
    (∀ pos, pos < 3 →
      chartGet (fullChart scalars [((0:Nat),(2:Nat))] 4) 1 pos =
        chartGet (fullChart scalars [] 4) 1 pos) ∧
    chartGet (fullChart scalars [((0:Nat),(2:Nat))] 4) 2 1 =
      chartGet (fullChart scalars [] 4) 2 1 ∧
    chartGet (fullChart scalars [((0:Nat),(2:Nat))] 4) 3 0 =
      chartGet (fullChart scalars [] 4) 3 0 ∧
    chartGet (fullChart scalars [((0:Nat),(2:Nat))] 4) 3 0 =
      psEntry scalars (fullChart scalars [((0:Nat),(2:Nat))] 4) 3 0 1 := by
  have hS1 : ∀ p : Nat, cellForced [((0:Nat),(2:Nat))] 1 p = [0] :=
    fun p => rfl
  have hN1 : ∀ p : Nat, cellForced [] 1 p = [0] :=
    fun p => by rw [cellForced_nil_spans, if_pos rfl]
  have hS20 : cellForced [((0:Nat),(2:Nat))] 2 0 = [1] := by decide
  have hS21 : cellForced [((0:Nat),(2:Nat))] 2 1 = [] := by decide
  have hN20 : cellForced [] 2 0 = [] := by
    rw [cellForced_nil_spans, if_neg (by omega)]
  have hN21 : cellForced [] 2 1 = [] := by
    rw [cellForced_nil_spans, if_neg (by omega)]
  have hS30 : cellForced [((0:Nat),(2:Nat))] 3 0 = [] := by decide
  have hN30 : cellForced [] 3 0 = [] := by
    rw [cellForced_nil_spans, if_neg (by omega)]
  have hK0 : ∀ p : Nat, p < 4 →
      chartGet (fullChart scalars [((0:Nat),(2:Nat))] 4) 0 p = 1 := by
    intro p hp
    rw [fullChart, chartUpto]
    exact chartGet_zero _ _ _ hp
  have hU0 : ∀ p : Nat, p < 4 →
      chartGet (fullChart scalars [] 4) 0 p = 1 := by
    intro p hp
    rw [fullChart, chartUpto]
    exact chartGet_zero _ _ _ hp
  have hK1 : ∀ p : Nat, p < 3 →
      chartGet (fullChart scalars [((0:Nat),(2:Nat))] 4) 1 p =
        1 + 1 + scalars 1 p 0 := by
    intro p hp
    rw [chart_cell_forced scalars _ (by omega) (by omega) (by omega) (hS1 p),
      psEntry]
    have e1 : chartGet (fullChart scalars [((0:Nat),(2:Nat))] 4) 0 p = 1 :=
      hK0 p (by omega)
    have e2 : chartGet (fullChart scalars [((0:Nat),(2:Nat))] 4) (1 - 0 - 1)
        (p + 0 + 1) = 1 := hK0 (p + 0 + 1) (by omega)
    omega
  have hU1 : ∀ p : Nat, p < 3 →
      chartGet (fullChart scalars [] 4) 1 p = 1 + 1 + scalars 1 p 0 := by
    intro p hp
    rw [chart_cell_forced scalars _ (by omega) (by omega) (by omega) (hN1 p),
      psEntry]
    have e1 : chartGet (fullChart scalars [] 4) 0 p = 1 := hU0 p (by omega)
    have e2 : chartGet (fullChart scalars [] 4) (1 - 0 - 1) (p + 0 + 1) = 1 :=
      hU0 (p + 0 + 1) (by omega)
    omega
  have hK20 : chartGet (fullChart scalars [((0:Nat),(2:Nat))] 4) 2 0 =
      1 + 1 + scalars 1 0 0 + 1 + scalars 2 0 1 := by
    rw [chart_cell_forced scalars _ (by omega) (by omega) (by omega) hS20,
      psEntry]
    have e1 : chartGet (fullChart scalars [((0:Nat),(2:Nat))] 4) 1 0 =
        1 + 1 + scalars 1 0 0 := hK1 0 (by omega)
    have e2 : chartGet (fullChart scalars [((0:Nat),(2:Nat))] 4) (2 - 1 - 1)
        (0 + 1 + 1) = 1 := hK0 (0 + 1 + 1) (by omega)
    omega
  have hU20 : chartGet (fullChart scalars [] 4) 2 0 =
      max (1 + (1 + 1 + scalars 1 1 0) + scalars 2 0 0)
        (1 + 1 + scalars 1 0 0 + 1 + scalars 2 0 1) := by
    rw [chart_cell_unforced_max scalars [] (by omega) (by omega) (by omega)
      hN20]
    show max (psEntry scalars (fullChart scalars [] 4) 2 0 0)
      (psEntry scalars (fullChart scalars [] 4) 2 0 1) = _
    rw [psEntry, psEntry]
    have e1 : chartGet (fullChart scalars [] 4) 0 0 = 1 := hU0 0 (by omega)
    have e2 : chartGet (fullChart scalars [] 4) (2 - 0 - 1) (0 + 0 + 1) =
        1 + 1 + scalars 1 1 0 := hU1 (0 + 0 + 1) (by omega)
    have e3 : chartGet (fullChart scalars [] 4) 1 0 =
        1 + 1 + scalars 1 0 0 := hU1 0 (by omega)
    have e4 : chartGet (fullChart scalars [] 4) (2 - 1 - 1) (0 + 1 + 1) = 1 :=
      hU0 (0 + 1 + 1) (by omega)
    omega
  have hK21 : chartGet (fullChart scalars [((0:Nat),(2:Nat))] 4) 2 1 =
      max (1 + (1 + 1 + scalars 1 2 0) + scalars 2 1 0)
        (1 + 1 + scalars 1 1 0 + 1 + scalars 2 1 1) := by
    rw [chart_cell_unforced_max scalars _ (by omega) (by omega) (by omega)
      hS21]
    show max (psEntry scalars (fullChart scalars [((0:Nat),(2:Nat))] 4) 2 1 0)
      (psEntry scalars (fullChart scalars [((0:Nat),(2:Nat))] 4) 2 1 1) = _
    rw [psEntry, psEntry]
    have e1 : chartGet (fullChart scalars [((0:Nat),(2:Nat))] 4) 0 1 = 1 :=
      hK0 1 (by omega)
    have e2 : chartGet (fullChart scalars [((0:Nat),(2:Nat))] 4) (2 - 0 - 1)
        (1 + 0 + 1) = 1 + 1 + scalars 1 2 0 := hK1 (1 + 0 + 1) (by omega)
    have e3 : chartGet (fullChart scalars [((0:Nat),(2:Nat))] 4) 1 1 =
        1 + 1 + scalars 1 1 0 := hK1 1 (by omega)
    have e4 : chartGet (fullChart scalars [((0:Nat),(2:Nat))] 4) (2 - 1 - 1)
        (1 + 1 + 1) = 1 := hK0 (1 + 1 + 1) (by omega)
    omega
  have hU21 : chartGet (fullChart scalars [] 4) 2 1 =
      max (1 + (1 + 1 + scalars 1 2 0) + scalars 2 1 0)
        (1 + 1 + scalars 1 1 0 + 1 + scalars 2 1 1) := by
    rw [chart_cell_unforced_max scalars [] (by omega) (by omega) (by omega)
      hN21]
    show max (psEntry scalars (fullChart scalars [] 4) 2 1 0)
      (psEntry scalars (fullChart scalars [] 4) 2 1 1) = _
    rw [psEntry, psEntry]
    have e1 : chartGet (fullChart scalars [] 4) 0 1 = 1 := hU0 1 (by omega)
    have e2 : chartGet (fullChart scalars [] 4) (2 - 0 - 1) (1 + 0 + 1) =
        1 + 1 + scalars 1 2 0 := hU1 (1 + 0 + 1) (by omega)
    have e3 : chartGet (fullChart scalars [] 4) 1 1 =
        1 + 1 + scalars 1 1 0 := hU1 1 (by omega)
    have e4 : chartGet (fullChart scalars [] 4) (2 - 1 - 1) (1 + 1 + 1) = 1 :=
      hU0 (1 + 1 + 1) (by omega)
    omega
  have hK30 : chartGet (fullChart scalars [((0:Nat),(2:Nat))] 4) 3 0 =
      max (1 + (max (1 + (1 + 1 + scalars 1 2 0) + scalars 2 1 0)
            (1 + 1 + scalars 1 1 0 + 1 + scalars 2 1 1)) + scalars 3 0 0)
        (max ((1 + 1 + scalars 1 0 0) + (1 + 1 + scalars 1 2 0) + scalars 3 0 1)
          ((1 + 1 + scalars 1 0 0 + 1 + scalars 2 0 1) + 1 + scalars 3 0 2)) := by
    rw [chart_cell_unforced_max scalars _ (by omega) (by omega) (by omega)
      hS30]
    show max (psEntry scalars (fullChart scalars [((0:Nat),(2:Nat))] 4) 3 0 0)
      (max (psEntry scalars (fullChart scalars [((0:Nat),(2:Nat))] 4) 3 0 1)
        (psEntry scalars (fullChart scalars [((0:Nat),(2:Nat))] 4) 3 0 2)) = _
    rw [psEntry, psEntry, psEntry]
    have e1 : chartGet (fullChart scalars [((0:Nat),(2:Nat))] 4) 0 0 = 1 :=
      hK0 0 (by omega)
    have e2 : chartGet (fullChart scalars [((0:Nat),(2:Nat))] 4) (3 - 0 - 1)
        (0 + 0 + 1) =
        max (1 + (1 + 1 + scalars 1 2 0) + scalars 2 1 0)
          (1 + 1 + scalars 1 1 0 + 1 + scalars 2 1 1) := hK21
    have e3 : chartGet (fullChart scalars [((0:Nat),(2:Nat))] 4) 1 0 =
        1 + 1 + scalars 1 0 0 := hK1 0 (by omega)
    have e4 : chartGet (fullChart scalars [((0:Nat),(2:Nat))] 4) (3 - 1 - 1)
        (0 + 1 + 1) = 1 + 1 + scalars 1 2 0 := hK1 (0 + 1 + 1) (by omega)
    have e5 : chartGet (fullChart scalars [((0:Nat),(2:Nat))] 4) 2 0 =
        1 + 1 + scalars 1 0 0 + 1 + scalars 2 0 1 := hK20
    have e6 : chartGet (fullChart scalars [((0:Nat),(2:Nat))] 4) (3 - 2 - 1)
        (0 + 2 + 1) = 1 := hK0 (0 + 2 + 1) (by omega)
    omega
  have hU30 : chartGet (fullChart scalars [] 4) 3 0 =
      max (1 + (max (1 + (1 + 1 + scalars 1 2 0) + scalars 2 1 0)
            (1 + 1 + scalars 1 1 0 + 1 + scalars 2 1 1)) + scalars 3 0 0)
        (max ((1 + 1 + scalars 1 0 0) + (1 + 1 + scalars 1 2 0) + scalars 3 0 1)
          (max (1 + (1 + 1 + scalars 1 1 0) + scalars 2 0 0)
              (1 + 1 + scalars 1 0 0 + 1 + scalars 2 0 1) + 1 + scalars 3 0 2)) := by
    rw [chart_cell_unforced_max scalars [] (by omega) (by omega) (by omega)
      hN30]
    show max (psEntry scalars (fullChart scalars [] 4) 3 0 0)
      (max (psEntry scalars (fullChart scalars [] 4) 3 0 1)
        (psEntry scalars (fullChart scalars [] 4) 3 0 2)) = _
    rw [psEntry, psEntry, psEntry]
    have e1 : chartGet (fullChart scalars [] 4) 0 0 = 1 := hU0 0 (by omega)
    have e2 : chartGet (fullChart scalars [] 4) (3 - 0 - 1) (0 + 0 + 1) =
        max (1 + (1 + 1 + scalars 1 2 0) + scalars 2 1 0)
          (1 + 1 + scalars 1 1 0 + 1 + scalars 2 1 1) := hU21
    have e3 : chartGet (fullChart scalars [] 4) 1 0 =
        1 + 1 + scalars 1 0 0 := hU1 0 (by omega)
    have e4 : chartGet (fullChart scalars [] 4) (3 - 1 - 1) (0 + 1 + 1) =
        1 + 1 + scalars 1 2 0 := hU1 (0 + 1 + 1) (by omega)
    have e5 : chartGet (fullChart scalars [] 4) 2 0 =
        max (1 + (1 + 1 + scalars 1 1 0) + scalars 2 0 0)
          (1 + 1 + scalars 1 0 0 + 1 + scalars 2 0 1) := hU20
    have e6 : chartGet (fullChart scalars [] 4) (3 - 2 - 1) (0 + 2 + 1) = 1 :=
      hU0 (0 + 2 + 1) (by omega)
    omega
  have pa := hmax (.node .leaf (.node .leaf (.node .leaf .leaf)))
    (by decide) (by decide)
  have pb := hmax (.node .leaf (.node (.node .leaf .leaf) .leaf))
    (by decide) (by decide)
  have pc := hmax (.node (.node .leaf (.node .leaf .leaf)) .leaf)
    (by decide) (by decide)
  have pd := hmax (.node (.node (.node .leaf .leaf) .leaf) .leaf)
    (by decide) (by decide)
  simp only [potSum, BTree.size] at pa pb pc pd
  norm_num at pa pb pc pd
  refine ⟨hS20, hS30, chart_cell_forced scalars _ (by omega) (by omega)
    (by omega) hS20, ?_, ?_, ?_, ?_⟩
  · intro pos hpos
    rw [hK1 pos hpos, hU1 pos hpos]
  · rw [hK21, hU21]
  · rw [hK30, hU30]
    omega
  · rw [psEntry]
    have e3 : chartGet (fullChart scalars [((0:Nat),(2:Nat))] 4) 1 0 =
        1 + 1 + scalars 1 0 0 := hK1 0 (by omega)
    have e4 : chartGet (fullChart scalars [((0:Nat),(2:Nat))] 4) (3 - 1 - 1)
        (0 + 1 + 1) = 1 + 1 + scalars 1 2 0 := hK1 (0 + 1 + 1) (by omega)
    rw [hK30]
    omega

theorem claim_C3_forced_at_level2_amended_witness :
    (∀ t ∈ treesOfSize 4,
      t ≠ BTree.node (.node .leaf .leaf) (.node .leaf .leaf) →
        potSum scalC3 0 t <
          potSum scalC3 0 (BTree.node (.node .leaf .leaf) (.node .leaf .leaf))) ∧
    (cellForced [((0:Nat),(2:Nat))] 2 0 = [1] ∧
    cellForced [((0:Nat),(2:Nat))] 3 0 = [] ∧
    chartGet (fullChart scalC3 [((0:Nat),(2:Nat))] 4) 2 0 =
      psEntry scalC3 (fullChart scalC3 [((0:Nat),(2:Nat))] 4) 2 0 1 ∧
    (∀ pos, pos < 3 →
      chartGet (fullChart scalC3 [((0:Nat),(2:Nat))] 4) 1 pos =
        chartGet (fullChart scalC3 [] 4) 1 pos) ∧
    chartGet (fullChart scalC3 [((0:Nat),(2:Nat))] 4) 2 1 =
      chartGet (fullChart scalC3 [] 4) 2 1 ∧
    chartGet (fullChart scalC3 [((0:Nat),(2:Nat))] 4) 3 0 =
      chartGet (fullChart scalC3 [] 4) 3 0 ∧
    chartGet (fullChart scalC3 [((0:Nat),(2:Nat))] 4) 3 0 =
      psEntry scalC3 (fullChart scalC3 [((0:Nat),(2:Nat))] 4) 3 0 1) :=
  ⟨by decide, claim_C3_forced_at_level2_amended scalC3 (by decide)⟩
